import Mathlib

/-!
Verification of the gfaestus core components described by the spec: the
path-name parsers and path step range extractor of src/annotations.rs, the
graph query service of src/graph_query.rs, and the label cluster builder and
cluster cache of src/annotations.rs.

Modelling conventions: Rust usize values become Nat; the source's f32 scalars
(view scale, clustering radius, screen coordinates) become rationals; byte
strings become lists of characters; a Rust function that may panic returns a
RunResult whose panicked constructor models the unwind, and hash maps become
association lists iterated in insertion order.
-/

/-- Result of running a Rust computation that may panic: the panicked
constructor models a panic (an abort of the call, not a value), returned a
normal return. -/
inductive RunResult (α : Type) where
| panicked : RunResult α
| returned : α → RunResult α
deriving DecidableEq

/-! ## Path-name parsing (src/annotations.rs, path_name_chr_range) -/

/-- Embeds the bstr find_byte call used by the parsers: index of the first
occurrence of a character, if any. -/
def findByte (c : Char) : List Char → Option Nat
| [] => none
| x :: xs => if x = c then some 0 else (findByte c xs).map (fun i => i + 1)

/-- Embeds Rust usize string parsing as used via str::parse: an optional
leading plus sign followed by at least one ASCII digit, rejecting values that
do not fit in 64 bits. -/
def parseUsize (s : List Char) : Option Nat :=
  let digits := match s with
    | '+' :: rest => rest
    | _ => s
  if digits.isEmpty then none
  else if digits.all (fun c => c.isDigit) then
    let v := digits.foldl (fun a c => a * 10 + (c.toNat - 48)) 0
    if v < 2 ^ 64 then some v else none
  else none

/-- Embeds the Rust slice expression s[i..j] on byte strings: panics unless
i ≤ j and j ≤ s.length. -/
def sliceRange (s : List Char) (i j : Nat) : RunResult (List Char) :=
  if i ≤ j ∧ j ≤ s.length then RunResult.returned ((s.drop i).take (j - i))
  else RunResult.panicked

/-- Embeds path_name_chr_range from src/annotations.rs. The byte string is a
list of characters, so the to_str UTF-8 checks of the source cannot fail here
and are omitted; RunResult.panicked models the panic of the source's slice
expression for the start bound when the first colon comes after the first
dash. Every early return of None in the source is RunResult.returned none. -/
def path_name_chr_range (pathName : List Char) :
    RunResult (Option (List Char × Nat × Nat)) :=
  match findByte '#' pathName with
  | none => RunResult.returned none
  | some posStartIx =>
    if posStartIx + 1 ≥ pathName.length then RunResult.returned none
    else
      let posStr := pathName.drop (posStartIx + 1)
      match findByte ':' posStr with
      | none => RunResult.returned none
      | some seqIdEnd =>
        match findByte '-' posStr with
        | none => RunResult.returned none
        | some rangeMid =>
          if rangeMid + 1 ≥ posStr.length then RunResult.returned none
          else
            let chr := posStr.take seqIdEnd
            match sliceRange posStr (seqIdEnd + 1) rangeMid with
            | RunResult.panicked => RunResult.panicked
            | RunResult.returned startStr =>
              match parseUsize startStr with
              | none => RunResult.returned none
              | some startVal =>
                let endStr := posStr.drop (rangeMid + 1)
                match parseUsize endStr with
                | none => RunResult.returned none
                | some endVal =>
                  RunResult.returned (some (chr, startVal, endVal))

/-! ## Path step range extraction (src/annotations.rs, path_step_range) -/

/-- A path step as stored in the step vectors handed to path_step_range: the
oriented handle's node identifier, the step pointer, and the cumulative
base-pair offset. -/
structure Step where
  handle : Nat
  ptr : Nat
  pos : Nat
deriving DecidableEq

/-- Default step used by the total list-indexing operations of the model. -/
def defaultStep : Step := Step.mk 1 0 0

/-- Core loop of Rust slice::binary_search_by specialised to searching a key
among natural-number step offsets, exactly as in the standard library: at each
iteration the probe is left + (right - left) / 2; an exact hit returns
Except.ok with its index, exhaustion returns Except.error with the insertion
point. Recursion is structural on a fuel counter: every iteration strictly
shrinks the window right - left, so whenever the fuel is at least the window
size the fuel-exhausted branch coincides with the loop's own exit (both return
the insertion point left with an empty window). -/
def binSearchGo (offs : List Nat) (key : Nat) : Nat → Nat → Nat → Except Nat Nat
| 0, left, _right => Except.error left
| fuel + 1, left, right =>
  if left < right then
    let mid := left + (right - left) / 2
    let v := offs.getD mid 0
    if v < key then binSearchGo offs key fuel (mid + 1) right
    else if key < v then binSearchGo offs key fuel left mid
    else Except.ok mid
  else Except.error left

/-- Embeds steps.binary_search_by_key over the whole slice: the initial window
is the whole list, so its length is adequate fuel. -/
def binSearch (offs : List Nat) (key : Nat) : Except Nat Nat :=
  binSearchGo offs key offs.length 0 offs.length

/-- Collapses the source's four-armed match over the two binary-search
results: Ok and Err both degrade to an index. -/
def searchIx : Except Nat Nat → Nat
| Except.ok i => i
| Except.error i => i

/-- Path-local adjusted start bound: the Rust expression
start.checked_sub(offset).unwrap_or(0) is exactly truncated subtraction. -/
def adjStart (offset s : Nat) : Nat := s - offset

/-- Path-local adjusted end bound: the Rust expression
end.checked_sub(offset).unwrap_or(start + len), where start is the already
adjusted start bound and len is the original query length end - start. -/
def adjEnd (offset s e : Nat) : Nat :=
  if offset ≤ e then e - offset else adjStart offset s + (e - s)

/-- The cumulative offsets of a step slice, the keys of both binary
searches. -/
def stepOffsets (steps : List Step) : List Nat := steps.map Step.pos

/-- Embeds path_step_range from src/annotations.rs. The source's own Option
wrapper is always Some; the none result here models the panic of the final
slice expression when its bounds are invalid. The initial length computation
end - start is a Rust usize subtraction, rendered as truncated subtraction,
which agrees with the source whenever start ≤ end (all theorems below assume
this). -/
def path_step_range (steps : List Step) (offset : Option Nat) (s e : Nat) :
    Option (List Step) :=
  let off := offset.getD 0
  let s' := adjStart off s
  let e' := adjEnd off s e
  let startIx := searchIx (binSearch (stepOffsets steps) s')
  let endIx := searchIx (binSearch (stepOffsets steps) e')
  let endCl := min endIx steps.length
  if startIx ≤ endCl ∧ endCl ≤ steps.length then
    some ((steps.drop startIx).take (endCl - startIx))
  else none

/-! ## Graph query service (src/graph_query.rs) -/

/-- Edge direction at a node, as handlegraph's Direction. -/
inductive Direction where
| left : Direction
| right : Direction
deriving DecidableEq

/-- Modelled from the spec: the Graph Store's read-only accessors (the
PackedGraph and PathPositionMap implementations live in the external
handlegraph crate). Occurrence lists model steps_on_handle, an optional
iterator over the path occurrences of a node; sequences are byte lists. -/
structure GraphModel where
  node_count : Nat
  edge_count : Nat
  path_count : Nat
  total_length : Nat
  node_len : Nat → Nat
  degree : Nat → Direction → Nat
  steps_on_handle : Nat → Option (List (Nat × Nat))
  path_len : Nat → Option Nat
  sequence_vec : Nat → List Nat

/-- Embeds GraphQueryRequest from src/graph_query.rs. -/
inductive GraphQueryRequest where
| graphStats : GraphQueryRequest
| nodeStats : Nat → GraphQueryRequest
| pathStats : Nat → GraphQueryRequest
| nodeSeq : Nat → GraphQueryRequest
deriving DecidableEq

/-- Embeds GraphQueryResp from src/graph_query.rs. -/
inductive GraphQueryResp where
| graphStats : (node_count edge_count path_count total_len : Nat) → GraphQueryResp
| nodeStats : (node_id len : Nat) → (degree : Nat × Nat) → (coverage : Nat) → GraphQueryResp
| pathStats : (path_id step_count : Nat) → GraphQueryResp
| nodeSeq : (node_id : Nat) → (seq : List Nat) → (len : Nat) → GraphQueryResp
deriving DecidableEq

/-- The tag of a request or response variant. -/
inductive QueryTag where
| graphStats : QueryTag
| nodeStats : QueryTag
| pathStats : QueryTag
| nodeSeq : QueryTag
deriving DecidableEq

/-- Tag of a request. -/
def reqTag : GraphQueryRequest → QueryTag
| GraphQueryRequest.graphStats => QueryTag.graphStats
| GraphQueryRequest.nodeStats _ => QueryTag.nodeStats
| GraphQueryRequest.pathStats _ => QueryTag.pathStats
| GraphQueryRequest.nodeSeq _ => QueryTag.nodeSeq

/-- Tag of a response. -/
def respTag : GraphQueryResp → QueryTag
| GraphQueryResp.graphStats _ _ _ _ => QueryTag.graphStats
| GraphQueryResp.nodeStats _ _ _ _ => QueryTag.nodeStats
| GraphQueryResp.pathStats _ _ => QueryTag.pathStats
| GraphQueryResp.nodeSeq _ _ _ => QueryTag.nodeSeq

/-- Embeds the request dispatch of the Query Thread's loop in
QueryThread::new: exactly the read implied by the request tag, including
unwrap_or(0) for coverage of a node with no occurrences and for the step
count of an absent path. -/
def handleRequest (g : GraphModel) : GraphQueryRequest → GraphQueryResp
| GraphQueryRequest.graphStats =>
    GraphQueryResp.graphStats g.node_count g.edge_count g.path_count g.total_length
| GraphQueryRequest.nodeStats n =>
    GraphQueryResp.nodeStats n (g.node_len n)
      (g.degree n Direction.left, g.degree n Direction.right)
      ((Option.map List.length (g.steps_on_handle n)).getD 0)
| GraphQueryRequest.pathStats p =>
    GraphQueryResp.pathStats p ((g.path_len p).getD 0)
| GraphQueryRequest.nodeSeq n =>
    GraphQueryResp.nodeSeq n (g.sequence_vec n) (g.sequence_vec n).length

/-- Embeds QueryThread::request_blocking. The channel pair to the Query
Thread is modelled by its observable state: some g when the thread is alive
over Graph Store g (the rendezvous then yields the thread's response), none
when the thread has terminated and the channel is closed, in which case the
source unwraps the send error and panics. -/
def QueryThread.request_blocking (state : Option GraphModel)
    (req : GraphQueryRequest) : RunResult GraphQueryResp :=
  match state with
  | none => RunResult.panicked
  | some g => RunResult.returned (handleRequest g req)

/-- Embeds GraphQuery::query_request_blocking, which forwards to the query
thread. -/
def GraphQuery.query_request_blocking (state : Option GraphModel)
    (req : GraphQueryRequest) : RunResult GraphQueryResp :=
  QueryThread.request_blocking state req

/-! ## Label clustering (src/annotations.rs, ClusterCache) -/

/-- Modelled from the spec: a 2-D point of the absent geometry module, with
rational coordinates standing for the source's f32. -/
structure Point where
  x : ℚ
  y : ℚ
deriving DecidableEq

/-- Squared Euclidean distance between two points. -/
def Point.distSqr (p q : Point) : ℚ := (p.x - q.x) ^ 2 + (p.y - q.y) ^ 2

/-- Embeds the comparison dist(p, q) <= radius of the source without leaving
the rationals: the distance is the nonnegative square root of distSqr, so the
comparison holds exactly when the radius is nonnegative and distSqr is at most
its square. -/
def withinRadius (p q : Point) (radius : ℚ) : Bool :=
  decide (0 ≤ radius ∧ Point.distSqr p q ≤ radius * radius)

/-- Modelled from the spec: a rendered graph node of the absent universe
module occupies a segment from its leading edge p0 to its trailing edge p1. -/
structure Node where
  p0 : Point
  p1 : Point
deriving DecidableEq

/-- Modelled from the spec: a node's world-space centre, the midpoint of its
segment. -/
def Node.center (n : Node) : Point :=
  Point.mk ((n.p0.x + n.p1.x) / 2) ((n.p0.y + n.p1.y) / 2)

/-- Default node used by the total list-indexing operations of the model. -/
def defaultNode : Node := Node.mk (Point.mk 0 0) (Point.mk 0 0)

/-- Modelled from the spec: the view transform of the absent view module,
carrying the scale consulted by the Cluster Cache memoization and the
world-to-screen projection applied by the source's to_screen closure built
from to_scaled_matrix. -/
structure View where
  scale : ℚ
  toScreen : Point → Point

/-- Embeds AnnotationLabelSet from src/annotations.rs, keeping the fields the
clustering reads; the atomic visibility cell is a plain boolean here (the
claims do not concern concurrent toggling) and the node-to-label-indices hash
map is a function returning none for unlabeled nodes. -/
structure AnnotationLabelSet where
  annotation_name : String
  label_set_name : String
  path_name : String
  show_flag : Bool
  label_strings : List String
  labels : Nat → Option (List Nat)

/-- Embeds ClusterIndices from src/annotations.rs. -/
structure ClusterIndices where
  label_indices : List Nat
  offset_ix : Nat
deriving DecidableEq

/-- Association-list model of FxHashMap insertion: replaces the value at an
existing key, otherwise appends; iteration order of the model is insertion
order (the source's hash-map iteration order is arbitrary, and no claim
depends on it). -/
def insertAssoc {κ ν : Type} [DecidableEq κ] (k : κ) (v : ν) :
    List (κ × ν) → List (κ × ν)
| [] => [(k, v)]
| (k', v') :: rest =>
    if k = k' then (k, v) :: rest else (k', v') :: insertAssoc k v rest

/-- State of the linear scan over steps shared by ClusterCache::new_cluster,
ClusterCache::rebuild_cluster and cluster_annotations: the open cluster's step
index range, the screen position recorded when the open cluster was opened,
the accumulated label indices, and the map of closed clusters. -/
structure ScanState where
  cluster_range_ix : Option (Nat × Nat)
  cluster_start_pos : Option Point
  current_cluster : List Nat
  clusters : List ((Nat × Nat) × List Nat)

/-- Initial scan state: no open cluster, no closed clusters. -/
def initScanState : ScanState := ScanState.mk none none [] []

/-- One iteration of the cluster scan loop. A node without labels is skipped.
Otherwise its screen position is compared against cluster_start_pos, the
position stored when the open cluster was opened (the source never updates it
while extending); within the radius the open cluster's end index advances and
the labels accumulate, outside it the open cluster is inserted into the closed
map under its index range and a new cluster opens here. The source's unwrap of
cluster_range_ix in the closing branch cannot fail (an open position implies
an open range) and is rendered with a default. -/
def scanStep (labels : Nat → Option (List Nat)) (toScreen : Point → Point)
    (nodes : List Node) (radius : ℚ) (st : ScanState) (ixStep : Nat × Step) :
    ScanState :=
  let ix := ixStep.1
  let node := ixStep.2.handle
  match labels node with
  | none => st
  | some labelIndices =>
    let nodePos := toScreen (Node.center (nodes.getD (node - 1) defaultNode))
    match st.cluster_start_pos with
    | some startPos =>
      if withinRadius nodePos startPos radius then
        { st with
          cluster_range_ix := st.cluster_range_ix.map (fun r => (r.1, ix)),
          current_cluster := st.current_cluster ++ labelIndices }
      else
        { st with
          clusters := insertAssoc (st.cluster_range_ix.getD (0, 0))
            st.current_cluster st.clusters,
          current_cluster := labelIndices,
          cluster_start_pos := some nodePos,
          cluster_range_ix := some (ix, ix) }
    | none =>
      { st with
        cluster_start_pos := some nodePos,
        cluster_range_ix := some (ix, ix),
        current_cluster := st.current_cluster ++ labelIndices }

/-- The scan over the enumerated steps. Note that the source never inserts the
still-open cluster into the closed map after the loop: the final state's
current open cluster is simply dropped by the callers. -/
def runScan (labels : Nat → Option (List Nat)) (toScreen : Point → Point)
    (steps : List Step) (nodes : List Node) (radius : ℚ) : ScanState :=
  List.foldl (scanStep labels toScreen nodes radius) initScanState steps.enum

/-- Rotation of a vector by positive 90 degrees, glm::rotate_vec2 at pi / 2.
Modelled from the spec: glm is external; the source further normalizes the
rotated vector to unit length, a positive rescale that is undefined on the
zero vector and has no exact representative over the rationals, and no claim
inspects the stored direction values, so the model stores the unnormalized
direction. -/
def rotate90 (p : Point) : Point := Point.mk (-p.y) p.x

/-- One closed cluster's contribution in the second pass shared by
ClusterCache::new_cluster and ClusterCache::rebuild_cluster: anchor at the
middle step of the range, compute the rotated offset direction from the first
step node's leading edge to the last step node's trailing edge, record the
cluster under the anchor node with offset_ix equal to the offset list's length
before the push. Indexing is total here; the ranges produced by the scan are
within bounds whenever the scan's nodes were. -/
def closeClusterStep (steps : List Step) (nodes : List Node)
    (acc : List Point × List (Nat × ClusterIndices))
    (entry : (Nat × Nat) × List Nat) :
    List Point × List (Nat × ClusterIndices) :=
  let s := entry.1.1
  let e := entry.1.2
  let slice := (steps.drop s).take (e + 1 - s)
  let mid := slice.getD (slice.length / 2) defaultStep
  let startH := (steps.getD s defaultStep).handle
  let endH := (steps.getD e defaultStep).handle
  let startP := (nodes.getD (startH - 1) defaultNode).p0
  let endP := (nodes.getD (endH - 1) defaultNode).p1
  let offset := rotate90 (Point.mk (endP.x - startP.x) (endP.y - startP.y))
  let ci := ClusterIndices.mk entry.2 acc.1.length
  (acc.1 ++ [offset], insertAssoc mid.handle ci acc.2)

/-- The close pass over all recorded clusters, from empty offset and anchor
accumulators (new_cluster starts them empty, rebuild_cluster clears them
first). -/
def closeClusters (steps : List Step) (nodes : List Node)
    (clusters : List ((Nat × Nat) × List Nat)) :
    List Point × List (Nat × ClusterIndices) :=
  List.foldl (closeClusterStep steps nodes) ([], []) clusters

/-- Embeds ClusterCache from src/annotations.rs. -/
structure ClusterCache where
  label_set : AnnotationLabelSet
  cluster_offsets : List Point
  node_labels : List (Nat × ClusterIndices)
  view_scale : ℚ
  radius : ℚ

/-- Embeds ClusterCache::new_cluster: run the scan, close the recorded
clusters, and store the view scale and radius used. -/
def ClusterCache.new_cluster (steps : List Step) (nodes : List Node)
    (labelSet : AnnotationLabelSet) (view : View) (radius : ℚ) : ClusterCache :=
  let st := runScan labelSet.labels view.toScreen steps nodes radius
  let built := closeClusters steps nodes st.clusters
  ClusterCache.mk labelSet built.1 built.2 view.scale radius

/-- Embeds ClusterCache::rebuild_cluster: if the new scale is within 0.0001 of
the stored scale and the radius equals the stored radius exactly, return false
without touching the cache; otherwise store the new scale and radius, clear
the offsets and anchors, rerun the build over the cache's own label set, and
return true. The boolean and the updated cache stand for the source's return
value and mutated receiver. -/
def ClusterCache.rebuild_cluster (c : ClusterCache) (steps : List Step)
    (nodes : List Node) (view : View) (radius : ℚ) : Bool × ClusterCache :=
  if |view.scale - c.view_scale| < 1 / 10000 ∧ radius = c.radius then (false, c)
  else
    let st := runScan c.label_set.labels view.toScreen steps nodes radius
    let built := closeClusters steps nodes st.clusters
    (true, ClusterCache.mk c.label_set built.1 built.2 view.scale radius)

/-! ## Concrete scenarios used by the claims -/

/-- Label assignment giving node 1 label index 0, node 2 label index 1 and
node 3 label index 2. -/
def labelsABC : Nat → Option (List Nat) := fun n =>
  if n = 1 then some [0] else if n = 2 then some [1]
  else if n = 3 then some [2] else none

/-- A label set over three labeled nodes. -/
def labelSetABC : AnnotationLabelSet :=
  AnnotationLabelSet.mk "annotations.gff3" "abc" "path" true
    ["A", "B", "C"] labelsABC

/-- A three-step path visiting nodes 1, 2, 3. -/
def stepsABC : List Step := [Step.mk 1 0 0, Step.mk 2 1 10, Step.mk 3 2 20]

/-- A zero-length node at the given position: its centre, leading edge and
trailing edge coincide there. -/
def nodeAt (x y : ℚ) : Node := Node.mk (Point.mk x y) (Point.mk x y)

/-- Nodes 1, 2, 3 at screen positions (0,0), (50,0), (100,0): consecutive
distances 50 and 50, total distance 100. -/
def nodesChain : List Node := [nodeAt 0 0, nodeAt 50 0, nodeAt 100 0]

/-- Nodes 1, 2, 3 at screen positions (0,0), (50,0), (200,0). -/
def nodesGap : List Node := [nodeAt 0 0, nodeAt 50 0, nodeAt 200 0]

/-- The identity view: scale 1, world coordinates are screen coordinates. -/
def identView : View := View.mk 1 id

/-- The cluster cache built over the collinear chain scenario with radius
50. -/
def cacheChain : ClusterCache :=
  ClusterCache.new_cluster stepsABC nodesChain labelSetABC identView 50

/-- The cluster cache built over the gap scenario with radius 60. -/
def cacheGap : ClusterCache :=
  ClusterCache.new_cluster stepsABC nodesGap labelSetABC identView 60

/-- An initially empty cluster cache with stored scale 0 and radius 0. -/
def emptyCacheABC : ClusterCache :=
  ClusterCache.mk labelSetABC [] [] 0 0

/-- An initially empty cluster cache with stored scale 1 and radius 50. -/
def cacheFresh : ClusterCache := ClusterCache.mk labelSetABC [] [] 1 50

/-- Five steps with cumulative offsets 0, 10, 20, 30, 40, over nodes 1 to
5. -/
def steps5 : List Step :=
  [Step.mk 1 0 0, Step.mk 2 1 10, Step.mk 3 2 20, Step.mk 4 3 30,
   Step.mk 5 4 40]

/-! ## Binary search characterization -/

/-- The binary search loop never leaves its window: the resulting index lies
between left and right. -/
theorem binSearchGo_bounds (offs : List Nat) (key : Nat) :
    ∀ (fuel left right : Nat), left ≤ right →
      left ≤ searchIx (binSearchGo offs key fuel left right) ∧
      searchIx (binSearchGo offs key fuel left right) ≤ right := by
  intro fuel
  induction fuel with
  | zero =>
    intro left right h
    simp only [binSearchGo, searchIx]
    omega
  | succ n ih =>
    intro left right h
    simp only [binSearchGo]
    by_cases hlr : left < right
    · rw [if_pos hlr]
      have hdiv : (right - left) / 2 < right - left :=
        Nat.div_lt_self (by omega) one_lt_two
      by_cases hvk : offs.getD (left + (right - left) / 2) 0 < key
      · simp only [if_pos hvk]
        have := ih (left + (right - left) / 2 + 1) right (by omega)
        omega
      · rw [if_neg hvk]
        by_cases hkv : key < offs.getD (left + (right - left) / 2) 0
        · rw [if_pos hkv]
          have := ih left (left + (right - left) / 2) (by omega)
          omega
        · rw [if_neg hkv]
          simp only [searchIx]
          omega
    · rw [if_neg hlr]
      simp only [searchIx]
      omega

/-- Over a strictly sorted offset list, the collapsed binary search result is
the lower bound of the key: every offset strictly before it is below the key
and every offset from it on is at least the key, provided the window's
invariants held on entry. -/
theorem binSearchGo_resolve (offs : List Nat) (key : Nat)
    (hsort : ∀ i j, i < j → j < offs.length → offs.getD i 0 < offs.getD j 0) :
    ∀ (fuel left right : Nat), right - left ≤ fuel → right ≤ offs.length →
      (∀ j, j < left → offs.getD j 0 < key) →
      (∀ j, right ≤ j → j < offs.length → key ≤ offs.getD j 0) →
      left ≤ right →
      (∀ j, j < searchIx (binSearchGo offs key fuel left right) →
          offs.getD j 0 < key) ∧
      (∀ j, searchIx (binSearchGo offs key fuel left right) ≤ j →
          j < offs.length → key ≤ offs.getD j 0) := by
  intro fuel
  induction fuel with
  | zero =>
    intro left right hfuel hrlen hl hr hlr
    simp only [binSearchGo, searchIx]
    exact ⟨fun j hj => hl j hj, fun j hj hjl => hr j (by omega) hjl⟩
  | succ n ih =>
    intro left right hfuel hrlen hl hr hlr
    simp only [binSearchGo]
    by_cases hwin : left < right
    · rw [if_pos hwin]
      have hdiv : (right - left) / 2 < right - left :=
        Nat.div_lt_self (by omega) one_lt_two
      set mid := left + (right - left) / 2 with hmid
      have hmidr : mid < right := by omega
      have hmidlen : mid < offs.length := by omega
      by_cases hvk : offs.getD mid 0 < key
      · simp only [if_pos hvk]
        refine ih (mid + 1) right (by omega) hrlen ?_ hr (by omega)
        intro j hj
        rcases Nat.lt_or_ge j mid with hjm | hjm
        · exact lt_trans (hsort j mid hjm hmidlen) hvk
        · have : j = mid := by omega
          rw [this]
          exact hvk
      · rw [if_neg hvk]
        by_cases hkv : key < offs.getD mid 0
        · rw [if_pos hkv]
          refine ih left mid (by omega) (by omega) hl ?_ (by omega)
          intro j hj hjl
          rcases Nat.lt_or_ge mid j with hjm | hjm
          · exact le_of_lt (lt_trans hkv (hsort mid j hjm hjl))
          · have : j = mid := by omega
            rw [this]
            exact le_of_lt hkv
        · rw [if_neg hkv]
          have hveq : offs.getD mid 0 = key := by omega
          simp only [searchIx]
          constructor
          · intro j hj
            calc offs.getD j 0 < offs.getD mid 0 := hsort j mid hj hmidlen
              _ = key := hveq
          · intro j hj hjl
            rcases Nat.lt_or_ge mid j with hjm | hjm
            · exact le_of_lt (hveq ▸ hsort mid j hjm hjl)
            · have : j = mid := by omega
              rw [this, hveq]
    · rw [if_neg hwin]
      simp only [searchIx]
      exact ⟨fun j hj => hl j hj, fun j hj hjl => hr j (by omega) hjl⟩

/-- The collapsed full-slice binary search result never exceeds the list
length. -/
theorem binSearch_le (offs : List Nat) (key : Nat) :
    searchIx (binSearch offs key) ≤ offs.length :=
  (binSearchGo_bounds offs key offs.length 0 offs.length (Nat.zero_le _)).2

/-- Lower-bound characterization of the full-slice binary search over a
strictly sorted offset list. -/
theorem binSearch_resolve (offs : List Nat) (key : Nat)
    (hsort : ∀ i j, i < j → j < offs.length → offs.getD i 0 < offs.getD j 0) :
    (∀ j, j < searchIx (binSearch offs key) → offs.getD j 0 < key) ∧
    (∀ j, searchIx (binSearch offs key) ≤ j → j < offs.length →
      key ≤ offs.getD j 0) :=
  binSearchGo_resolve offs key hsort offs.length 0 offs.length (by omega)
    (le_refl _) (fun j hj => absurd hj (Nat.not_lt_zero j))
    (fun j hj hjl => absurd (lt_of_le_of_lt hj hjl) (lt_irrefl _))
    (Nat.zero_le _)

/-- A pairwise strictly increasing list is strictly increasing at any two
in-range default-indexed positions. -/
theorem pairwise_getD_lt (l : List Nat) (h : l.Pairwise (· < ·)) :
    ∀ i j, i < j → j < l.length → l.getD i 0 < l.getD j 0 := by
  intro i j hij hj
  rw [List.getD_eq_getElem l 0 (by omega), List.getD_eq_getElem l 0 hj]
  exact List.pairwise_iff_getElem.mp h i j (by omega) hj hij

/-- Taking the offsets of a step list preserves its length. -/
theorem stepOffsets_length (steps : List Step) :
    (stepOffsets steps).length = steps.length := by
  simp [stepOffsets]

/-- Indexing the offset list agrees with projecting the indexed step. -/
theorem stepOffsets_getD (steps : List Step) (j : Nat) (hj : j < steps.length) :
    (stepOffsets steps).getD j 0 = (steps.getD j defaultStep).pos := by
  rw [stepOffsets, List.getD_eq_getElem _ 0 (by simpa using hj),
    List.getD_eq_getElem _ defaultStep hj, List.getElem_map]

/-- A member of a drop-take window of a list sits at an index inside that
window. -/
theorem mem_drop_take (l : List Step) (a b : Nat) (x : Step)
    (hx : x ∈ (l.drop a).take b) :
    ∃ j, a ≤ j ∧ j < l.length ∧ j < a + b ∧ l.getD j defaultStep = x := by
  obtain ⟨i, hi, hget⟩ := List.mem_iff_getElem.mp hx
  have hi' : i < min b (l.length - a) := by
    simpa [List.length_take, List.length_drop] using hi
  have hlen : i < (l.drop a).length := by
    simp [List.length_drop]
    omega
  have h2 : (l.drop a).get ⟨i, hlen⟩ = x := by
    rw [List.get_eq_getElem, ← hget]
    exact (List.getElem_take _).symm
  refine ⟨a + i, by omega, by omega, by omega, ?_⟩
  rw [List.getD_eq_getElem _ defaultStep (by omega), ← List.getElem_drop l]
  exact h2

/-- When the computed start index does not exceed the clamped end index, the
range extractor returns exactly the corresponding window of the steps. -/
theorem path_step_range_eq (steps : List Step) (offset : Option Nat) (s e : Nat)
    (h : searchIx (binSearch (stepOffsets steps) (adjStart (offset.getD 0) s)) ≤
      min (searchIx (binSearch (stepOffsets steps) (adjEnd (offset.getD 0) s e)))
        steps.length) :
    path_step_range steps offset s e = some
      ((steps.drop
          (searchIx (binSearch (stepOffsets steps) (adjStart (offset.getD 0) s)))).take
        (min (searchIx (binSearch (stepOffsets steps) (adjEnd (offset.getD 0) s e)))
            steps.length -
          searchIx (binSearch (stepOffsets steps) (adjStart (offset.getD 0) s)))) := by
  simp only [path_step_range]
  rw [if_pos ⟨h, min_le_right _ _⟩]

/-- C5: for every strictly sorted step array, path-start offset and interval
with s ≤ e, path_step_range returns a slice (never indexing out of bounds);
every returned step's offset lies in the path-local adjusted half-open
interval; a degenerate interval s = e yields the empty slice; and an interval
lying entirely after every step of the path yields the empty slice. -/
theorem path_step_range_sound (steps : List Step) (offset : Option Nat)
    (s e : Nat) (hsort : (stepOffsets steps).Pairwise (· < ·)) (hse : s ≤ e) :
    ∃ out, path_step_range steps offset s e = some out ∧
      (∀ st ∈ out, adjStart (offset.getD 0) s ≤ st.pos ∧
        st.pos < adjEnd (offset.getD 0) s e) ∧
      (s = e → out = []) ∧
      ((∀ st ∈ steps, st.pos + offset.getD 0 < s) → out = []) := by
  have hlen := stepOffsets_length steps
  have hs := pairwise_getD_lt _ hsort
  obtain ⟨hstart1, hstart2⟩ :=
    binSearch_resolve (stepOffsets steps) (adjStart (offset.getD 0) s) hs
  obtain ⟨hend1, hend2⟩ :=
    binSearch_resolve (stepOffsets steps) (adjEnd (offset.getD 0) s e) hs
  have hstartLe := binSearch_le (stepOffsets steps) (adjStart (offset.getD 0) s)
  have hendLe := binSearch_le (stepOffsets steps) (adjEnd (offset.getD 0) s e)
  have hsele : adjStart (offset.getD 0) s ≤ adjEnd (offset.getD 0) s e := by
    simp only [adjStart, adjEnd]
    split <;> omega
  have hse' :
      searchIx (binSearch (stepOffsets steps) (adjStart (offset.getD 0) s)) ≤
      searchIx (binSearch (stepOffsets steps) (adjEnd (offset.getD 0) s e)) := by
    by_contra hcon
    push_neg at hcon
    have h1 :
        searchIx (binSearch (stepOffsets steps) (adjEnd (offset.getD 0) s e)) <
          (stepOffsets steps).length := by omega
    have h2 := hend2 _ (le_refl _) h1
    have h3 := hstart1 _ hcon
    omega
  refine ⟨_, path_step_range_eq steps offset s e (by omega), ?_, ?_, ?_⟩
  · intro st hst
    obtain ⟨j, hj1, hj2, hj3, hj4⟩ := mem_drop_take steps _ _ st hst
    have hjend :
        j < searchIx (binSearch (stepOffsets steps)
          (adjEnd (offset.getD 0) s e)) := by
      omega
    have hlow := hstart2 j hj1 (by omega)
    have hhigh := hend1 j hjend
    rw [stepOffsets_getD steps j hj2, hj4] at hlow hhigh
    exact ⟨hlow, hhigh⟩
  · intro heq
    subst heq
    have hkeys : adjEnd (offset.getD 0) s s = adjStart (offset.getD 0) s := by
      simp only [adjStart, adjEnd]
      split <;> omega
    rw [hkeys]
    have hmin :
        min (searchIx (binSearch (stepOffsets steps)
            (adjStart (offset.getD 0) s))) steps.length =
          searchIx (binSearch (stepOffsets steps)
            (adjStart (offset.getD 0) s)) := by
      omega
    rw [hmin, Nat.sub_self, List.take_zero]
  · intro hafter
    have hall : ∀ j, j < (stepOffsets steps).length →
        (stepOffsets steps).getD j 0 < adjStart (offset.getD 0) s := by
      intro j hj
      rw [stepOffsets_getD steps j (by omega)]
      have hmem : steps.getD j defaultStep ∈ steps := by
        rw [List.getD_eq_getElem _ defaultStep (by omega)]
        exact List.getElem_mem _
      have := hafter _ hmem
      simp only [adjStart]
      omega
    have hfull :
        searchIx (binSearch (stepOffsets steps) (adjStart (offset.getD 0) s)) =
          steps.length := by
      by_contra hne
      have hlt :
          searchIx (binSearch (stepOffsets steps)
            (adjStart (offset.getD 0) s)) < (stepOffsets steps).length := by
        omega
      have := hstart2 _ (le_refl _) hlt
      have := hall _ hlt
      omega
    rw [hfull, List.drop_length, List.take_nil]

/-- C5 witness: the soundness theorem applied to the concrete five-step array
with offsets 0,10,20,30,40, offset 0 and query interval from 15 to 35. -/
theorem path_step_range_sound_witness :
    (stepOffsets steps5).Pairwise (· < ·) ∧ 15 ≤ 35 ∧
    (∃ out, path_step_range steps5 (some 0) 15 35 = some out ∧
      (∀ st ∈ out, adjStart ((some 0).getD 0) 15 ≤ st.pos ∧
        st.pos < adjEnd ((some 0).getD 0) 15 35) ∧
      (15 = 35 → out = []) ∧
      ((∀ st ∈ steps5, st.pos + (some 0).getD 0 < 15) → out = [])) :=
  ⟨by decide, by omega,
    path_step_range_sound steps5 (some 0) 15 35 (by decide) (by omega)⟩

/-! ## Range extraction scenarios -/

/-- C3 counterexample: for offsets 0,10,20,30,40, offset 0 and query interval
from 15 to 35, the extractor does not return the elements at indices 1 through
4 (positions 10 through 40) claimed by the spec. -/
theorem range_scenario_counterexample :
    path_step_range steps5 (some 0) 15 35 ≠
      some [Step.mk 2 1 10, Step.mk 3 2 20, Step.mk 4 3 30, Step.mk 5 4 40] := by
  decide

/-- C3 amended: the extractor returns the sub-slice at indices 2 through 3,
the elements with positions 20 and 30, because the insertion point for the
adjusted start bound 15 is index 2, the first offset at least 15, and the
insertion point for 35 is index 4. -/
theorem range_scenario_amended :
    path_step_range steps5 (some 0) 15 35 =
      some [Step.mk 3 2 20, Step.mk 4 3 30] := by
  decide

/-- C4 counterexample: over the sorted offsets 0,10,20,30,40 with path-start
offset 100, the query interval from 15 to 35 lies entirely before the path
(35 is at most 100) yet the extractor returns a non-empty slice, the first two
steps, refuting the claim that both bounds clamp to zero and the result is
empty. -/
theorem before_path_counterexample :
    (stepOffsets steps5).Pairwise (· < ·) ∧ 35 ≤ 100 ∧
    path_step_range steps5 (some 100) 15 35 =
      some [Step.mk 1 0 0, Step.mk 2 1 10] ∧
    path_step_range steps5 (some 100) 15 35 ≠ some [] :=
  ⟨by decide, by omega, by decide, by decide⟩

/-- C4 amended: only the start bound clamps to zero on underflow; the end
bound on underflow falls back to the adjusted start plus the query length, so
for s ≤ e an interval with e strictly below the offset behaves exactly like
the query from 0 to e - s over the unoffset path, and only e equal to the
offset yields the empty slice. -/
theorem before_path_amended (steps : List Step) (offset s e : Nat)
    (hse : s ≤ e) :
    (e < offset →
      path_step_range steps (some offset) s e =
        path_step_range steps none 0 (e - s)) ∧
    (e = offset → path_step_range steps (some offset) s e = some []) := by
  constructor
  · intro hlt
    have e1 : adjStart ((some offset).getD 0) s = 0 := by
      simp only [Option.getD_some, adjStart]
      omega
    have e2 : adjEnd ((some offset).getD 0) s e = e - s := by
      simp only [Option.getD_some, adjEnd, adjStart]
      rw [if_neg (by omega)]
      omega
    have e3 : adjStart ((none : Option Nat).getD 0) 0 = 0 := rfl
    have e4 : adjEnd ((none : Option Nat).getD 0) 0 (e - s) = e - s := by
      simp only [Option.getD_none, adjEnd, adjStart]
      rw [if_pos (Nat.zero_le _)]
      omega
    simp only [path_step_range, e1, e2, e3, e4]
  · intro heq
    subst heq
    have hlen := stepOffsets_length steps
    have hle := binSearch_le (stepOffsets steps) 0
    have e1 : adjStart ((some e).getD 0) s = 0 := by
      simp only [Option.getD_some, adjStart]
      omega
    have e2 : adjEnd ((some e).getD 0) s e = 0 := by
      simp only [Option.getD_some, adjEnd, adjStart]
      rw [if_pos (le_refl e)]
      omega
    rw [path_step_range_eq steps (some e) s e (by rw [e1, e2]; omega)]
    rw [e1, e2]
    have hmin : min (searchIx (binSearch (stepOffsets steps) 0)) steps.length =
        searchIx (binSearch (stepOffsets steps) 0) := by
      omega
    rw [hmin, Nat.sub_self, List.take_zero]

/-- C4 amended witness: the amended behavior applied at the concrete
five-step array, with an interval strictly before the offset and one ending
exactly at the offset. -/
theorem before_path_amended_witness :
    15 ≤ 35 ∧
    path_step_range steps5 (some 100) 15 35 =
      path_step_range steps5 none 0 20 ∧
    path_step_range steps5 (some 35) 15 35 = some [] :=
  ⟨by omega,
    (before_path_amended steps5 100 15 35 (by omega)).1 (by omega),
    (before_path_amended steps5 35 15 35 (by omega)).2 rfl⟩

/-! ## Graph query service theorems -/

/-- C6: with a live query thread, query_request_blocking returns the response
whose tag matches the request tag, never a mismatched one, and the fields are
exactly the corresponding Graph Store reads: graph-wide counts and total
length, per-node length, left and right degree, coverage equal to the number
of path occurrences of the node (0 when there are none), per-path step count
(0 when the path is absent), and per-node sequence with its length. -/
theorem query_request_blocking_matches (g : GraphModel)
    (req : GraphQueryRequest) :
    GraphQuery.query_request_blocking (some g) req =
      RunResult.returned (handleRequest g req) ∧
    respTag (handleRequest g req) = reqTag req ∧
    handleRequest g GraphQueryRequest.graphStats =
      GraphQueryResp.graphStats g.node_count g.edge_count g.path_count
        g.total_length ∧
    (∀ n, handleRequest g (GraphQueryRequest.nodeStats n) =
      GraphQueryResp.nodeStats n (g.node_len n)
        (g.degree n Direction.left, g.degree n Direction.right)
        (match g.steps_on_handle n with
         | some occs => occs.length
         | none => 0)) ∧
    (∀ p, handleRequest g (GraphQueryRequest.pathStats p) =
      GraphQueryResp.pathStats p ((g.path_len p).getD 0)) ∧
    (∀ n, handleRequest g (GraphQueryRequest.nodeSeq n) =
      GraphQueryResp.nodeSeq n (g.sequence_vec n) (g.sequence_vec n).length) := by
  refine ⟨rfl, ?_, rfl, fun n => ?_, fun p => rfl, fun n => rfl⟩
  · cases req <;> rfl
  · simp only [handleRequest]
    cases g.steps_on_handle n <;> rfl

/-- C8 counterexample: with the query thread terminated (channel closed), a
query_request_blocking call panics, because the source unwraps the channel
send error; the call aborts instead of returning an explicitly propagated
fatal value, and indeed its Rust return type has no error variant at all. -/
theorem closed_channel_counterexample :
    GraphQuery.query_request_blocking none GraphQueryRequest.graphStats =
      RunResult.panicked := rfl

/-- C8 amended: when the query thread has terminated every request panics via
the unwrapped channel error, and this panic is the call's only failure mode:
with a live thread the call always returns the thread's matching response. -/
theorem closed_channel_amended :
    (∀ req, GraphQuery.query_request_blocking none req = RunResult.panicked) ∧
    (∀ g req, GraphQuery.query_request_blocking (some g) req =
      RunResult.returned (handleRequest g req)) :=
  ⟨fun _ => rfl, fun _ _ => rfl⟩

/-! ## Cluster cache theorems -/

/-- C7: rebuilding with a scale within 0.0001 of the stored scale and a radius
exactly equal to the stored radius returns false and leaves the cache
untouched in every field; a changed radius returns true and produces exactly
the cache a fresh build over the stored label set would produce, with the new
scale and radius stored. -/
theorem rebuild_cluster_memoization (c : ClusterCache) (steps : List Step)
    (nodes : List Node) (view : View) (radius : ℚ) :
    (|view.scale - c.view_scale| < 1 / 10000 → radius = c.radius →
      ClusterCache.rebuild_cluster c steps nodes view radius = (false, c)) ∧
    (radius ≠ c.radius →
      ClusterCache.rebuild_cluster c steps nodes view radius =
        (true, ClusterCache.new_cluster steps nodes c.label_set view radius)) := by
  constructor
  · intro h1 h2
    simp only [ClusterCache.rebuild_cluster]
    rw [if_pos ⟨h1, h2⟩]
  · intro h
    simp only [ClusterCache.rebuild_cluster]
    rw [if_neg (fun hc => h hc.2)]
    rfl

/-- C7 witness: the memoization theorem applied to a concrete cache with
stored scale 1 and radius 50, once with the same scale and radius and once
with radius 60. -/
theorem rebuild_cluster_memoization_witness :
    ClusterCache.rebuild_cluster cacheFresh stepsABC nodesChain identView 50 =
      (false, cacheFresh) ∧
    ClusterCache.rebuild_cluster cacheFresh stepsABC nodesChain identView 60 =
      (true, ClusterCache.new_cluster stepsABC nodesChain cacheFresh.label_set
        identView 60) :=
  ⟨(rebuild_cluster_memoization cacheFresh stepsABC nodesChain identView 50).1
      (by norm_num [identView, cacheFresh]) (by norm_num [cacheFresh]),
   (rebuild_cluster_memoization cacheFresh stepsABC nodesChain identView 60).2
      (by norm_num [cacheFresh])⟩

/-- C1 counterexample: three labeled nodes A, B, C collinear on screen at
(0,0), (50,0), (100,0) with radius 50, so that consecutive distances equal the
radius and the total distance is twice the radius, do not all land in one
cluster: no recorded cluster carries all three label indices, because the scan
compares each labeled step to the position of the open cluster's first member,
not to the previous labeled step. -/
theorem chain_scenario_counterexample :
    ¬ ∃ p ∈ cacheChain.node_labels,
      0 ∈ p.2.label_indices ∧ 1 ∈ p.2.label_indices ∧ 2 ∈ p.2.label_indices := by
  have h : cacheChain.node_labels = [(2, ClusterIndices.mk [0, 1] 0)] := by
    norm_num [cacheChain, ClusterCache.new_cluster, runScan, List.enum, stepsABC,
      scanStep, initScanState, labelSetABC, labelsABC, identView, nodesChain,
      nodeAt, withinRadius, Point.distSqr, Node.center, defaultNode,
      closeClusters, closeClusterStep, insertAssoc, defaultStep, rotate90]
  rw [h]
  decide

/-- C1 amended: in the chain scenario the builder records exactly one cluster,
holding the labels of A and B anchored at B, while C opens a new cluster that
the scan never records; rebuild_cluster from a stale cache computes the same
anchor map. -/
theorem chain_scenario_amended :
    cacheChain.node_labels = [(2, ClusterIndices.mk [0, 1] 0)] ∧
    cacheChain.cluster_offsets.length = 1 ∧
    (ClusterCache.rebuild_cluster emptyCacheABC stepsABC nodesChain identView
        50).2.node_labels = [(2, ClusterIndices.mk [0, 1] 0)] := by
  refine ⟨?_, ?_, ?_⟩ <;>
    norm_num [cacheChain, emptyCacheABC, ClusterCache.new_cluster,
      ClusterCache.rebuild_cluster, runScan, List.enum, stepsABC, scanStep,
      initScanState, labelSetABC, labelsABC, identView, nodesChain, nodeAt,
      withinRadius, Point.distSqr, Node.center, defaultNode, closeClusters,
      closeClusterStep, insertAssoc, defaultStep, rotate90]

/-- C2: evaluating the builder at the failing input of the claim, labels on
nodes at screen positions (0,0), (50,0), (200,0) with radius 60: the scan
closes the cluster of the first two nodes when it reaches the third, but the
still-open cluster containing the node at (200,0) is never recorded after the
scan, so the builder produces exactly one cluster instead of the two the
specification describes. -/
theorem gap_scenario_drops_last_cluster :
    cacheGap.node_labels = [(2, ClusterIndices.mk [0, 1] 0)] ∧
    cacheGap.cluster_offsets.length = 1 := by
  constructor <;>
    norm_num [cacheGap, ClusterCache.new_cluster, runScan, List.enum, stepsABC,
      scanStep, initScanState, labelSetABC, labelsABC, identView, nodesGap,
      nodeAt, withinRadius, Point.distSqr, Node.center, defaultNode,
      closeClusters, closeClusterStep, insertAssoc, defaultStep, rotate90]

/-- Membership after a hash-map insertion: the member is either the inserted
pair or was already present. -/
theorem insertAssoc_mem {κ ν : Type} [DecidableEq κ] (k : κ) (v : ν)
    (m : List (κ × ν)) (p : κ × ν) (hp : p ∈ insertAssoc k v m) :
    p = (k, v) ∨ p ∈ m := by
  induction m with
  | nil => simpa [insertAssoc] using hp
  | cons hd tl ih =>
    obtain ⟨k', v'⟩ := hd
    simp only [insertAssoc] at hp
    by_cases hk : k = k'
    · rw [if_pos hk] at hp
      rcases List.mem_cons.mp hp with h | h
      · exact Or.inl h
      · exact Or.inr (List.mem_cons_of_mem _ h)
    · rw [if_neg hk] at hp
      rcases List.mem_cons.mp hp with h | h
      · exact Or.inr (h ▸ List.mem_cons_self _ _)
      · rcases ih h with h' | h'
        · exact Or.inl h'
        · exact Or.inr (List.mem_cons_of_mem _ h')

/-- The close pass preserves the anchor-map invariant: every recorded
offset_ix indexes into the offset list, since each step inserts the current
offset-list length and then appends one offset. -/
theorem closeClusters_inv (steps : List Step) (nodes : List Node) :
    ∀ (clusters : List ((Nat × Nat) × List Nat))
      (acc : List Point × List (Nat × ClusterIndices)),
      (∀ p ∈ acc.2, p.2.offset_ix < acc.1.length) →
      ∀ p ∈ (List.foldl (closeClusterStep steps nodes) acc clusters).2,
        p.2.offset_ix <
          (List.foldl (closeClusterStep steps nodes) acc clusters).1.length := by
  intro clusters
  induction clusters with
  | nil => intro acc hacc p hp; exact hacc p hp
  | cons cl cls ih =>
    intro acc hacc
    simp only [List.foldl_cons]
    refine ih _ ?_
    intro p hp
    simp only [closeClusterStep] at hp ⊢
    rcases insertAssoc_mem _ _ _ _ hp with h | h
    · rw [h]
      simp [List.length_append]
    · have := hacc p h
      simp only [List.length_append, List.length_cons, List.length_nil]
      omega

/-- C10: after new_cluster, and after rebuild_cluster applied to any cache
already satisfying the invariant, every ClusterIndices stored in node_labels
has an offset_ix that is a valid index into cluster_offsets, so resolving a
cluster's offset vector through its anchor never goes out of bounds. -/
theorem cluster_offset_ix_in_bounds (steps : List Step) (nodes : List Node)
    (labelSet : AnnotationLabelSet) (view : View) (radius : ℚ)
    (c : ClusterCache) :
    (∀ p ∈ (ClusterCache.new_cluster steps nodes labelSet view
        radius).node_labels,
      p.2.offset_ix < (ClusterCache.new_cluster steps nodes labelSet view
        radius).cluster_offsets.length) ∧
    ((∀ p ∈ c.node_labels, p.2.offset_ix < c.cluster_offsets.length) →
      ∀ p ∈ (ClusterCache.rebuild_cluster c steps nodes view
          radius).2.node_labels,
        p.2.offset_ix < (ClusterCache.rebuild_cluster c steps nodes view
          radius).2.cluster_offsets.length) := by
  constructor
  · intro p hp
    simp only [ClusterCache.new_cluster, closeClusters] at hp ⊢
    exact closeClusters_inv steps nodes _ ([], []) (by simp) p hp
  · intro hc p hp
    simp only [ClusterCache.rebuild_cluster] at hp ⊢
    by_cases hcond : |view.scale - c.view_scale| < 1 / 10000 ∧ radius = c.radius
    · rw [if_pos hcond] at hp ⊢
      exact hc p hp
    · rw [if_neg hcond] at hp ⊢
      simp only [closeClusters] at hp ⊢
      exact closeClusters_inv steps nodes _ ([], []) (by simp) p hp

/-- C10 witness: the invariant theorem applied at the concrete chain scenario,
for the cluster built by new_cluster and for one rebuilt from an empty stale
cache. -/
theorem cluster_offset_ix_in_bounds_witness :
    ((2, ClusterIndices.mk [0, 1] 0) : Nat × ClusterIndices).2.offset_ix <
      (ClusterCache.new_cluster stepsABC nodesChain labelSetABC identView
        50).cluster_offsets.length ∧
    ((2, ClusterIndices.mk [0, 1] 0) : Nat × ClusterIndices).2.offset_ix <
      (ClusterCache.rebuild_cluster emptyCacheABC stepsABC nodesChain identView
        50).2.cluster_offsets.length :=
  ⟨(cluster_offset_ix_in_bounds stepsABC nodesChain labelSetABC identView 50
      emptyCacheABC).1 (2, ClusterIndices.mk [0, 1] 0)
      (by norm_num [cacheChain, ClusterCache.new_cluster, runScan, List.enum,
        stepsABC, scanStep, initScanState, labelSetABC, labelsABC, identView,
        nodesChain, nodeAt, withinRadius, Point.distSqr, Node.center,
        defaultNode, closeClusters, closeClusterStep, insertAssoc, defaultStep,
        rotate90]),
   (cluster_offset_ix_in_bounds stepsABC nodesChain labelSetABC identView 50
      emptyCacheABC).2 (by simp [emptyCacheABC]) (2, ClusterIndices.mk [0, 1] 0)
      (by norm_num [emptyCacheABC, ClusterCache.rebuild_cluster, runScan,
        List.enum, stepsABC, scanStep, initScanState, labelSetABC, labelsABC,
        identView, nodesChain, nodeAt, withinRadius, Point.distSqr, Node.center,
        defaultNode, closeClusters, closeClusterStep, insertAssoc, defaultStep,
        rotate90])⟩

/-! ## Path-name parsing theorems -/

/-- A list without the sought character has no found index. -/
theorem findByte_eq_none (c : Char) :
    ∀ s : List Char, (∀ x ∈ s, x ≠ c) → findByte c s = none := by
  intro s
  induction s with
  | nil => intro _; rfl
  | cons x xs ih =>
    intro h
    simp only [findByte]
    rw [if_neg (h x (List.mem_cons_self _ _)),
      ih (fun y hy => h y (List.mem_cons_of_mem _ hy))]
    rfl

/-- The first occurrence of a character sits right after a prefix free of
it. -/
theorem findByte_append (c : Char) :
    ∀ (a t : List Char), (∀ x ∈ a, x ≠ c) →
      findByte c (a ++ c :: t) = some a.length := by
  intro a
  induction a with
  | nil => intro t _; simp [findByte]
  | cons x xs ih =>
    intro t h
    simp only [List.cons_append, findByte]
    rw [if_neg (h x (List.mem_cons_self _ _))]
    have hxs : List.append xs (c :: t) = xs ++ c :: t := rfl
    rw [hxs, ih t (fun y hy => h y (List.mem_cons_of_mem _ hy))]
    simp

/-- Dropping one past a prefix removes the prefix and the marker character. -/
theorem drop_append_cons (x : Char) :
    ∀ (a t : List Char), (a ++ x :: t).drop (a.length + 1) = t := by
  intro a
  induction a with
  | nil => intro t; simp
  | cons y ys ih => intro t; simp only [List.cons_append, List.length_cons, List.drop_succ_cons]; exact ih t

/-- C9: the concrete name parses to its sequence identifier and bounds; any
byte string without the hash delimiter yields the absent result; and whenever
the string decomposes into name, hash, sequence identifier, colon, start
segment, dash and end segment with the first occurrences as shown, a start or
end segment that fails numeric parsing yields the absent result, never a
panic. -/
theorem path_name_chr_range_parses :
    path_name_chr_range ("chr1#chrX:100-200".toList) =
      RunResult.returned (some ("chrX".toList, 100, 200)) ∧
    (∀ s : List Char, (∀ x ∈ s, x ≠ '#') →
      path_name_chr_range s = RunResult.returned none) ∧
    (∀ a b c d : List Char, (∀ x ∈ a, x ≠ '#') → (∀ x ∈ b, x ≠ ':') →
      (∀ x ∈ b, x ≠ '-') → (∀ x ∈ c, x ≠ '-') →
      (parseUsize c = none ∨ parseUsize d = none) →
      path_name_chr_range (a ++ '#' :: (b ++ ':' :: (c ++ '-' :: d))) =
        RunResult.returned none) := by
  refine ⟨by decide, ?_, ?_⟩
  · intro s hs
    simp only [path_name_chr_range, findByte_eq_none '#' s hs]
  · intro a b c d ha hb1 hb2 hc hne
    have h1 : findByte '#' (a ++ '#' :: (b ++ ':' :: (c ++ '-' :: d))) =
        some a.length := findByte_append '#' a _ ha
    have hguard1 : ¬ (a.length + 1 ≥
        (a ++ '#' :: (b ++ ':' :: (c ++ '-' :: d))).length) := by
      simp only [List.length_append, List.length_cons]
      omega
    have hdrop1 : (a ++ '#' :: (b ++ ':' :: (c ++ '-' :: d))).drop
        (a.length + 1) = b ++ ':' :: (c ++ '-' :: d) := drop_append_cons '#' a _
    have h2 : findByte ':' (b ++ ':' :: (c ++ '-' :: d)) = some b.length :=
      findByte_append ':' b _ hb1
    have hassoc : b ++ ':' :: (c ++ '-' :: d) = (b ++ ':' :: c) ++ '-' :: d := by
      simp
    have h3 : findByte '-' (b ++ ':' :: (c ++ '-' :: d)) =
        some (b.length + 1 + c.length) := by
      rw [hassoc]
      have hall : ∀ x ∈ b ++ ':' :: c, x ≠ '-' := by
        intro x hx
        rcases List.mem_append.mp hx with h | h
        · exact hb2 x h
        · rcases List.mem_cons.mp h with h' | h'
          · rw [h']; decide
          · exact hc x h'
      rw [findByte_append '-' (b ++ ':' :: c) d hall]
      simp only [List.length_append, List.length_cons]
      congr 1
      omega
    simp only [path_name_chr_range, h1]
    rw [if_neg hguard1]
    simp only [hdrop1, h2, h3]
    by_cases hd : d = []
    · subst hd
      rw [if_pos (by simp only [List.length_append, List.length_cons,
        List.length_nil]; omega)]
    · have hdlen : d.length ≠ 0 := fun h0 => hd (List.length_eq_zero.mp h0)
      have hguard2 : ¬ (b.length + 1 + c.length + 1 ≥
          (b ++ ':' :: (c ++ '-' :: d)).length) := by
        simp only [List.length_append, List.length_cons]
        omega
      rw [if_neg hguard2]
      have hslice : sliceRange (b ++ ':' :: (c ++ '-' :: d)) (b.length + 1)
          (b.length + 1 + c.length) = RunResult.returned c := by
        simp only [sliceRange]
        have hcond : b.length + 1 ≤ b.length + 1 + c.length ∧
            b.length + 1 + c.length ≤ (b ++ ':' :: (c ++ '-' :: d)).length := by
          constructor
          · omega
          · simp only [List.length_append, List.length_cons]
            omega
        rw [if_pos hcond, drop_append_cons ':' b (c ++ '-' :: d)]
        have htake : (b.length + 1 + c.length) - (b.length + 1) = c.length := by
          omega
        rw [htake, List.take_left]
      simp only [hslice]
      have hdrop2 : (b ++ ':' :: (c ++ '-' :: d)).drop
          (b.length + 1 + c.length + 1) = d := by
        rw [hassoc]
        have hlen2 : b.length + 1 + c.length + 1 =
            (b ++ ':' :: c).length + 1 := by
          simp only [List.length_append, List.length_cons]
          omega
        rw [hlen2, drop_append_cons '-' (b ++ ':' :: c) d]
      rcases hne with hcn | hdn
      · simp only [hcn]
      · simp only [hdrop2, hdn]
        cases parseUsize c <;> rfl

/-- C9 witness: the parsing theorem applied to a concrete string without a
hash and to a concrete decomposition whose start bound fails numeric
parsing. -/
theorem path_name_chr_range_parses_witness :
    path_name_chr_range ("nohash".toList) = RunResult.returned none ∧
    path_name_chr_range ("p".toList ++ '#' :: ("q".toList ++ ':' ::
      ("x".toList ++ '-' :: "2".toList))) = RunResult.returned none :=
  ⟨path_name_chr_range_parses.2.1 ("nohash".toList) (by decide),
   path_name_chr_range_parses.2.2 ("p".toList) ("q".toList) ("x".toList)
     ("2".toList) (by decide) (by decide) (by decide) (by decide)
     (Or.inl (by decide))⟩
